import Mathlib

/-!
Verification development for the space_crawl4ai crawl orchestration client.

The TypeScript services under scrutiny are shallowly embedded here:
strings are modelled as `List Char`, the event-loop side effects of each
service method are made explicit (store calls, emitted trace events,
polling attempts), and every remote call is a function parameter (an
oracle), so that each method body becomes a total Lean function mirroring
the control flow of the source statement by statement.
-/

/-- JavaScript strings are modelled as lists of characters. -/
abbrev Str := List Char

/-- The character class of the regex `\s` restricted to the ASCII
whitespace characters that can occur in crawled text
(`estimateTokens` in the embeddings service matches `/\s/`). -/
def isWsChar (c : Char) : Bool :=
  c = ' ' || c = '\t' || c = '\n' || c = '\r' || c = '\x0b' || c = '\x0c'

/-- The character class `[.,;:!?()[\]{}"'-]` used by `estimateTokens`
to count punctuation. -/
def isPunctChar (c : Char) : Bool :=
  c = '.' || c = ',' || c = ';' || c = ':' || c = '!' || c = '?' ||
  c = '(' || c = ')' || c = '[' || c = ']' || c = '\x7b' || c = '\x7d' ||
  c = '\"' || c = '\'' || c = '-'

/-- Number of maximal whitespace runs in a string, scanned left to right;
the boolean argument records whether the previous character was whitespace.
`text.split(/\s+/).length` in JavaScript equals this count plus one. -/
def runsAux : Str → Bool → Nat
  | [], _ => 0
  | c :: t, prevWs =>
    if isWsChar c then (if prevWs then 0 else 1) + runsAux t true
    else runsAux t false

/-- Model of `text.split(/\s+/).length`: one more than the number of
maximal whitespace runs (leading or trailing runs contribute an empty
segment, exactly as in JavaScript). -/
def wordsCount (s : Str) : Nat := runsAux s false + 1

/-- Model of `(text.match(/[.,;:!?()[\]{}"'-]/g) || []).length`. -/
def punctCount (s : Str) : Nat := s.countP isPunctChar

/-- Model of `(text.match(/\s/g) || []).length`. -/
def wsCount (s : Str) : Nat := s.countP isWsChar

/-- `estimateTokens` from the embeddings service:
`Math.ceil(words + punctuation + whitespace / 4)`.  Since the word and
punctuation counts are integers, the ceiling only applies to the
whitespace quarter, giving `words + punct + ceil(ws / 4)`. -/
def estTokens (s : Str) : Nat :=
  wordsCount s + punctCount s + (wsCount s + 3) / 4

/-- JavaScript `String.prototype.trim`: strip whitespace from both ends. -/
def trimChars (s : Str) : Str :=
  ((s.dropWhile isWsChar).reverse.dropWhile isWsChar).reverse

/-- The non-whitespace content of a string (used to state the chunking
round-trip property). -/
def nonWs (s : Str) : Str := s.filter (fun c => !isWsChar c)

/-- JavaScript falsy-string coalescing `a || b` for strings. -/
def jsOr (a b : Str) : Str := if a.isEmpty then b else a

/-- The paragraph separator `"\n\n"`. -/
def nl2 : Str := ['\n', '\n']

/-- The sentence rejoin separator `". "`. -/
def dotSpace : Str := ['.', ' ']

/-- Lower-case every character (JavaScript `toLowerCase` on the ASCII
range used by the URL filter). -/
def toLowerStr (s : Str) : Str := s.map Char.toLower

/-- Substring test: `containsSub needle hay` is true when `needle` occurs
contiguously in `hay`; models a regex literal-alternative test. -/
def containsSub (needle : Str) : Str → Bool
  | [] => needle.isEmpty
  | c :: rest => needle.isPrefixOf (c :: rest) || containsSub needle rest

/-- `String.prototype.split(sep)` with a non-empty literal separator,
written with explicit fuel so that it is structurally recursive (the fuel
is always instantiated with the length of the string, which suffices
because every step consumes at least one character). -/
def splitOnSeqGo (sep : Str) : Nat → Str → List Str
  | 0, t => [t]
  | _ + 1, [] => [[]]
  | fuel + 1, c :: rest =>
    if sep.isPrefixOf (c :: rest) then
      [] :: splitOnSeqGo sep fuel ((c :: rest).drop sep.length)
    else
      match splitOnSeqGo sep fuel rest with
      | [] => [[c]]
      | s :: ss => (c :: s) :: ss

/-- `text.split(sep)` for a literal separator such as `"\n\n"`. -/
def splitOnSeq (sep t : Str) : List Str := splitOnSeqGo sep t.length t

/-- `String.prototype.split(c)` on a single-character literal separator. -/
def splitOnChar (sep : Char) : Str → List Str
  | [] => [[]]
  | c :: rest =>
    if c = sep then [] :: splitOnChar sep rest
    else
      match splitOnChar sep rest with
      | [] => [[c]]
      | s :: ss => (c :: s) :: ss

/-- `String.prototype.split(/[…]+/)`: split on maximal non-empty runs of
characters satisfying `isSep` (fuel-based for structural recursion). -/
def splitRunsGo (isSep : Char → Bool) : Nat → Str → List Str
  | 0, t => [t]
  | _ + 1, [] => [[]]
  | fuel + 1, c :: rest =>
    if isSep c then [] :: splitRunsGo isSep fuel (rest.dropWhile isSep)
    else
      match splitRunsGo isSep fuel rest with
      | [] => [[c]]
      | s :: ss => (c :: s) :: ss

/-- `text.split(/[.!?]+/)` style splitting on separator-character runs. -/
def splitRuns (isSep : Char → Bool) (t : Str) : List Str :=
  splitRunsGo isSep t.length t

/-- The sentence-boundary character class `[.!?]`. -/
def isSentSep (c : Char) : Bool := c = '.' || c = '!' || c = '?'

/-- `Array.prototype.join(sep)`. -/
def joinSeq (sep : Str) : List Str → Str
  | [] => []
  | [s] => s
  | s :: ss => s ++ sep ++ joinSeq sep ss

/-- The mutable state of `chunkText`: the accumulated `chunks` array and
the `currentChunk` string. -/
structure CState where
  chunks : List Str
  cur : Str
deriving DecidableEq

/-- `chunks.push(currentChunk.trim()); currentChunk = ''` — the push that
`chunkText` performs whenever the running chunk overflows. -/
def pushCur (st : CState) : CState :=
  { chunks := st.chunks ++ [trimChars st.cur], cur := [] }

/-- One iteration of the innermost loop of `chunkText`
(`for (const word of words)`), splitting an oversized sentence on single
spaces and packing words greedily. -/
def wordStep (M : Nat) (st : CState) (w : Str) : CState :=
  let test := if st.cur.isEmpty then w else st.cur ++ [' '] ++ w
  if estTokens test ≤ M then { st with cur := test }
  else if st.cur.isEmpty then { st with cur := w }
  else { chunks := st.chunks ++ [trimChars st.cur], cur := w }

/-- One iteration of the middle loop of `chunkText`
(`for (const sentence of sentences)`), packing sentences rejoined with
`". "` and falling back to the word loop when a sentence alone exceeds
the bound. -/
def sentenceStep (M : Nat) (st : CState) (s : Str) : CState :=
  let test := if st.cur.isEmpty then s else st.cur ++ dotSpace ++ s
  if estTokens test ≤ M then { st with cur := test }
  else
    let st1 := if st.cur.isEmpty then st else pushCur st
    if M < estTokens s then (splitOnChar ' ' s).foldl (wordStep M) st1
    else { st1 with cur := s }

/-- One iteration of the outer loop of `chunkText`
(`for (const paragraph of paragraphs)`), packing paragraphs rejoined with
`"\n\n"` and falling back to the sentence loop when a paragraph alone
exceeds the bound. -/
def paragraphStep (M : Nat) (st : CState) (p : Str) : CState :=
  let test := if st.cur.isEmpty then p else st.cur ++ nl2 ++ p
  if estTokens test ≤ M then { st with cur := test }
  else
    let st1 := if st.cur.isEmpty then st else pushCur st
    if M < estTokens p then (splitRuns isSentSep p).foldl (sentenceStep M) st1
    else { st1 with cur := p }

/-- `chunkText(text, maxTokens)` from the embeddings service: return the
whole text when it already fits, otherwise run the three nested greedy
loops, flush the final chunk if its trim is non-empty, and drop empty
fragments. -/
def chunkText (t : Str) (M : Nat) : List Str :=
  if estTokens t ≤ M then [t]
  else
    let st := (splitOnSeq nl2 t).foldl (paragraphStep M) ⟨[], []⟩
    let cs := if (trimChars st.cur).isEmpty then st.chunks
              else st.chunks ++ [trimChars st.cur]
    cs.filter (fun c => !c.isEmpty)

/-- The chunk-averaging step of `generateEmbedding`: a zero vector of the
first embedding's dimension is accumulated component-wise over all chunk
embeddings, then every component is divided by the number of chunks.
Numbers are modelled as rationals. -/
def avgVectors (vs : List (List ℚ)) : List ℚ :=
  match vs with
  | [] => []
  | v :: _ =>
    (vs.foldl (fun acc e => acc.zipWith (· + ·) e)
        (List.replicate v.length (0 : ℚ))).map
      (fun x => x / (vs.length : ℚ))

/-- The per-chunk safety truncation of `generateEmbedding`: a chunk whose
estimate still exceeds 7000 tokens is cut to `6000 * 3` characters before
the remote call. -/
def truncateChunk (c : Str) : Str :=
  if 7000 < estTokens c then c.take (6000 * 3) else c

/-- `generateEmbedding` with the chunking bound `M` as an explicit
parameter and the remote embeddings call abstracted as the oracle
`embed`: chunk the text, and either average the per-chunk vectors
(more than one chunk) or embed the possibly truncated whole text. -/
def generateEmbeddingWith (M : Nat) (embed : Str → List ℚ) (text : Str) :
    List ℚ :=
  let chunks := chunkText text M
  if 1 < chunks.length then
    avgVectors (chunks.map (fun c => embed (truncateChunk c)))
  else
    embed (truncateChunk text)

/-- `generateEmbedding` as in the source, where `chunkText` is called
with its default bound of 4500 estimated tokens. -/
def generateEmbedding (embed : Str → List ℚ) (text : Str) : List ℚ :=
  generateEmbeddingWith 4500 embed text

/-- The parts of a parsed URL that `filterAndPrioritizeUrls` reads. -/
structure UrlParts where
  hostname : Str
  pathname : Str
deriving DecidableEq

/-- Strip a literal `http://` or `https://` scheme (the only schemes the
discovered links are allowed to carry, cf. the `startsWith('http')`
filter at the call site). -/
def schemeSplit (s : Str) : Option Str :=
  if ("http://".data).isPrefixOf s then some (s.drop 7)
  else if ("https://".data).isPrefixOf s then some (s.drop 8)
  else none

/-- Simplified model of the WHATWG `new URL(u)` constructor for absolute
http(s) URLs without userinfo or port: `none` models the constructor
throwing; the hostname is lower-cased; an empty path reads as `/`. -/
def parseUrl (s : Str) : Option UrlParts :=
  match schemeSplit s with
  | none => none
  | some rest =>
    let host := rest.takeWhile (fun c => !(c = '/' || c = '?' || c = '#'))
    if host.isEmpty then none
    else
      let after := rest.drop host.length
      let path := after.takeWhile (fun c => !(c = '?' || c = '#'))
      some ⟨toLowerStr host, if path.isEmpty then ['/'] else path⟩

/-- The `skipExtensions` array of `filterAndPrioritizeUrls`. -/
def skipExtensions : List Str :=
  [".pdf", ".doc", ".docx", ".xls", ".xlsx", ".ppt", ".pptx",
   ".zip", ".rar", ".tar", ".gz", ".exe", ".dmg", ".pkg",
   ".jpg", ".jpeg", ".png", ".gif", ".svg", ".webp",
   ".mp3", ".mp4", ".avi", ".mov", ".wav", ".flv"].map String.data

/-- The literal alternatives of the first three `skipPatterns` regexes
`/\/(login|register|signup|signin|auth)/i`, `/\/(cart|checkout|payment|billing)/i`
and `/\/(admin|wp-admin)/i`, matched case-insensitively anywhere in the
raw URL string. -/
def lowValueNeedles : List Str :=
  ["/login", "/register", "/signup", "/signin", "/auth",
   "/cart", "/checkout", "/payment", "/billing",
   "/admin", "/wp-admin"].map String.data

/-- The suffix alternatives of the `/\.(css|js|json|txt|xml)$/i` pattern. -/
def staticAssetSuffixes : List Str :=
  [".css", ".js", ".json", ".txt", ".xml"].map String.data

/-- `skipPatterns.some(pattern => pattern.test(url))`: low-value path
alternatives (case-insensitive), the literal `#` anywhere, or a static
asset extension at the end of the raw URL (case-insensitive). -/
def lowValueHit (u : Str) : Bool :=
  lowValueNeedles.any (fun n => containsSub n (toLowerStr u)) ||
  containsSub ['#'] u ||
  staticAssetSuffixes.any (fun e => e.isSuffixOf (toLowerStr u))

/-- The filter predicate of `filterAndPrioritizeUrls` for one candidate
URL, given the parsed base URL `bp`: the URL must parse, share the base
hostname, not end in a skipped file extension (tested on the lower-cased
pathname), and not hit a low-value pattern (tested on the raw URL). -/
def urlAccept (bp : UrlParts) (u : Str) : Bool :=
  match parseUrl u with
  | none => false
  | some p =>
    if ¬ (p.hostname = bp.hostname) then false
    else if skipExtensions.any (fun e => e.isSuffixOf (toLowerStr p.pathname)) then false
    else if lowValueHit u then false
    else true

/-- `parsedUrl.pathname.split('/').filter(Boolean).length`. -/
def pathDepth (p : UrlParts) : Nat :=
  ((splitOnChar '/' p.pathname).filter (fun s => !s.isEmpty)).length

/-- The alternatives of the high-value keyword regex
`/\/(docs|documentation|api|guide|tutorial|blog|news|product)/i`,
which the source tests against the whole URL string. -/
def keywordNeedles : List Str :=
  ["/docs", "/documentation", "/api", "/guide",
   "/tutorial", "/blog", "/news", "/product"].map String.data

/-- `hasImportantKeywords` for a URL: some keyword alternative occurs
(case-insensitively) anywhere in the raw URL string. -/
def hasKeyword (u : Str) : Bool :=
  keywordNeedles.any (fun k => containsSub k (toLowerStr u))

/-- The priority key `hasImportantKeywords ? pathDepth - 1 : pathDepth`
computed by `filterAndPrioritizeUrls` (an integer: a keyword hit on a
root path yields `-1`).  URLs reaching the sort always parse, so the
`none` branch is arbitrary. -/
def priorityOf (u : Str) : Int :=
  match parseUrl u with
  | some p =>
    if hasKeyword u then (pathDepth p : Int) - 1 else (pathDepth p : Int)
  | none => 0

/-- The comparator `(a, b) => a.priority - b.priority` of the stable
ECMAScript `Array.prototype.sort`, as the ordering relation it sorts by. -/
def priLe (a b : Str) : Prop := priorityOf a ≤ priorityOf b

instance priLe.decRel : DecidableRel priLe := fun _ _ => Int.decLe _ _

instance priLe.total : IsTotal Str priLe := ⟨fun _ _ => Int.le_total _ _⟩

instance priLe.trans : IsTrans Str priLe :=
  ⟨fun _ _ _ h1 h2 => le_trans h1 h2⟩

/-- The map-to-records, stable-sort, map-back pipeline of
`filterAndPrioritizeUrls`, modelled as a stable insertion sort of the
accepted URLs by their priority key (ECMAScript sort is stable). -/
def prioritizeUrls (us : List Str) : List Str := List.insertionSort priLe us

/-- `filterAndPrioritizeUrls(urls, baseUrl)` with the `maxUrls`
configuration value as an explicit parameter; `none` models the
`new URL(baseUrl)` constructor throwing on an unparsable base. -/
def filterAndPrioritizeUrls (urls : List Str) (baseUrl : Str)
    (maxUrls : Nat) : Option (List Str) :=
  (parseUrl baseUrl).map
    (fun bp => (prioritizeUrls (urls.filter (urlAccept bp))).take maxUrls)

/-- Modelled from the spec: the priority key exactly as claim C9 words
it — path segment depth, reduced by one exactly when the path contains
one of the high-value keywords docs, api, guide, tutorial, blog,
product, reference.  Used only to compare the claimed ordering with the
ordering the code computes. -/
def specPriorityOf (u : Str) : Int :=
  match parseUrl u with
  | some p =>
    if (["docs", "api", "guide", "tutorial", "blog", "product",
         "reference"].map String.data).any
        (fun k => containsSub k (toLowerStr p.pathname)) then
      (pathDepth p : Int) - 1
    else (pathDepth p : Int)
  | none => 0

/-- One response of the remote `GET /task/{taskId}` endpoint as
`pollForResults` discriminates it: terminal completed, terminal failed
(with the reported cause), still pending, or the transport call itself
erroring. -/
inductive PollResp
  | completed
  | failed (cause : Str)
  | pending
  | transportErr
deriving DecidableEq

/-- What `pollForResults` can actually return or throw.  There is no
task-failed constructor: the `throw` on a terminal-failed response sits
inside the `try` block, so its own `catch` always swallows it.
`exhausted n` is the error thrown from the catch on the last attempt
(message `Polling failed after n attempts`), `timedOut` the error thrown
after the loop (message `Polling timed out`), and `success n` a return
on attempt `n`. -/
inductive PollOutcome
  | success (attempt : Nat)
  | exhausted (attempts : Nat)
  | timedOut
deriving DecidableEq

/-- The attempt loop of `pollForResults`, structurally recursive on the
remaining number of attempts (`fuel`); `attempt` is the 1-based loop
counter and `maxAttempts` the bound tested by the catch block.  A
pending response falls through to the delay and the next attempt; a
failed response raises inside the try, is caught, and — unless this was
the last attempt — is retried exactly like a transport error. -/
def pollGo (resp : Nat → PollResp) (maxAttempts : Nat) :
    Nat → Nat → PollOutcome
  | _, 0 => .timedOut
  | attempt, fuel + 1 =>
    match resp attempt with
    | .completed => .success attempt
    | .pending => pollGo resp maxAttempts (attempt + 1) fuel
    | .failed _ =>
      if attempt = maxAttempts then .exhausted maxAttempts
      else pollGo resp maxAttempts (attempt + 1) fuel
    | .transportErr =>
      if attempt = maxAttempts then .exhausted maxAttempts
      else pollGo resp maxAttempts (attempt + 1) fuel

/-- `pollForResults(taskId, originalUrl, maxAttempts)` with the remote
status endpoint abstracted as the oracle `resp` (response to the n-th
attempt).  The default of the source is `maxAttempts = 15`. -/
def pollForResults (resp : Nat → PollResp) (maxAttempts : Nat) :
    PollOutcome :=
  pollGo resp maxAttempts 1 maxAttempts

/-- A crawl result entry for one URL of a batch, as the result loop of
`intelligentBatchCrawl` reads it (`result.success`, `result.url`). -/
structure PageRec where
  url : Str
  success : Bool
deriving DecidableEq

/-- Observable scheduling events of `intelligentBatchCrawl`: a crawl
attempt for a batch (with its 1-based attempt number), the linear
back-off delay `coolOffDelay * attemptNumber` after a failed attempt,
and the cool-off delay between consecutive batches. -/
inductive BatchEvent
  | attempt (batchIdx attemptNo : Nat)
  | retryDelay (ms : Nat)
  | coolOff (ms : Nat)
deriving DecidableEq

/-- The retry loop of `intelligentBatchCrawl`
(`while (retryCount < maxRetries && !batchSuccess)`), structurally
recursive on the remaining retries (`fuel`, instantiated as
`maxRetries - retryCount`).  The POST for one batch is the oracle
`crawlB batch attemptNo`; on success the batch's successful results are
collected (failed entries only emit an event); on failure the retry
counter increments and, when retries remain, the linear back-off delay
`coolOff * retryCount` is inserted.  After exhausting retries nothing is
recorded for the batch. -/
def retryGo (crawlB : List Str → Nat → Except Unit (List PageRec))
    (batch : List Str) (bIdx coolOff maxRetries : Nat) :
    Nat → Nat → List BatchEvent × List PageRec
  | _, 0 => ([], [])
  | rc, fuel + 1 =>
    let att := rc + 1
    match crawlB batch att with
    | .ok rs => ([.attempt bIdx att], rs.filter (fun r => r.success))
    | .error _ =>
      if rc + 1 < maxRetries then
        let rest := retryGo crawlB batch bIdx coolOff maxRetries (rc + 1) fuel
        (.attempt bIdx att :: .retryDelay (coolOff * (rc + 1)) :: rest.1,
         rest.2)
      else ([.attempt bIdx att], [])

/-- One batch of `intelligentBatchCrawl`: run the retry loop starting
from `retryCount = 0`. -/
def runBatch (crawlB : List Str → Nat → Except Unit (List PageRec))
    (batch : List Str) (bIdx coolOff maxRetries : Nat) :
    List BatchEvent × List PageRec :=
  retryGo crawlB batch bIdx coolOff maxRetries 0 maxRetries

/-- The batch loop of `intelligentBatchCrawl`: batches run strictly in
order, each contributing its trace and its collected results, with a
cool-off delay after every batch except the last. -/
def schedGo (crawlB : List Str → Nat → Except Unit (List PageRec))
    (coolOff maxRetries : Nat) : Nat → List (List Str) →
    List BatchEvent × List PageRec
  | _, [] => ([], [])
  | i, b :: rest =>
    let rb := runBatch crawlB b i coolOff maxRetries
    let tail := schedGo crawlB coolOff maxRetries (i + 1) rest
    (rb.1 ++ (if rest.isEmpty then [] else [.coolOff coolOff]) ++ tail.1,
     rb.2 ++ tail.2)

/-- The batch-splitting loop `for (let i = 0; i < urls.length; i += maxBatchSize)`,
fuel-based (the fuel is the URL count, enough whenever `bs ≥ 1`). -/
def toBatchesGo (bs : Nat) : Nat → List Str → List (List Str)
  | 0, _ => []
  | _ + 1, [] => []
  | fuel + 1, us => us.take bs :: toBatchesGo bs fuel (us.drop bs)

/-- Split a URL list into consecutive batches of size `bs`. -/
def toBatches (bs : Nat) (us : List Str) : List (List Str) :=
  toBatchesGo bs us.length us

/-- `intelligentBatchCrawl(urls, …)` with the batching configuration as
explicit parameters and the remote call as an oracle: split into
batches, then run the scheduling loop.  Returns the emitted event trace
and the accumulated `allResults`. -/
def intelligentBatchCrawl
    (crawlB : List Str → Nat → Except Unit (List PageRec))
    (urls : List Str) (bs coolOff maxRetries : Nat) :
    List BatchEvent × List PageRec :=
  schedGo crawlB coolOff maxRetries 0 (toBatches bs urls)

/-- Status of a `CrawlResult` as the smart-site orchestration sets it. -/
inductive CrawlStatus
  | completed
  | failed
deriving DecidableEq

/-- The fields of a `CrawlResult` that the smart-site fallback logic
reads or writes. -/
structure CrawlOutcome where
  url : Str
  status : CrawlStatus
  error : Option Str
deriving DecidableEq

/-- The failed `CrawlResult` literal built by the error paths of the
smart-site methods. -/
def failedResult (url msg : Str) : CrawlOutcome := ⟨url, .failed, some msg⟩

/-- The error message prefix of `smartSiteCrawlManual`'s catch block. -/
def smartCrawlFailedMsg (e : Str) : Str := ("Smart crawl failed: ").data ++ e

/-- The combined error message of `smartSiteCrawl`'s inner catch block. -/
def allFailedMsg (ne me : Str) : Str :=
  ("All crawl methods failed. Native: ").data ++ ne ++
  (". Manual: ").data ++ me

/-- `smartSiteCrawlManual`: its entire body sits in a `try` whose catch
returns a failed `CrawlResult` instead of rethrowing.  The try-block
outcome (discovery, filtering, batched crawling, aggregation — or any
exception from them) is abstracted as `body`; the `Except` codomain
records whether the method itself can throw to its caller. -/
def smartSiteCrawlManual (url : Str) (body : Except Str CrawlOutcome) :
    Except Str CrawlOutcome :=
  match body with
  | .ok r => .ok r
  | .error e => .ok (failedResult url (smartCrawlFailedMsg e))

/-- `smartSiteCrawl`: try the native deep crawl; when it throws, fall
back to the manual smart crawl; when that in turn throws, return a
failed result with the combined message.  `native` abstracts
`smartSiteCrawlNative` and `manualBody` the try-block of
`smartSiteCrawlManual`. -/
def smartSiteCrawl (url : Str) (native : Except Str CrawlOutcome)
    (manualBody : Except Str CrawlOutcome) : CrawlOutcome :=
  match native with
  | .ok r => r
  | .error ne =>
    match smartSiteCrawlManual url manualBody with
    | .ok r => r
    | .error me => failedResult url (allFailedMsg ne me)

/-- The fields of a `CrawlResult` that `saveCrawlResultAsDocument`
reads; `title` is `crawlResult.metadata?.title` and `pageIndex` is
`crawlResult.metadata?.page_index`. -/
structure CrawlInfo where
  url : Str
  content : Str
  markdown : Str
  rawMarkdown : Str
  fitMarkdown : Str
  title : Option Str
  pageIndex : Option Nat
deriving DecidableEq

/-- The embedding-input selection of `saveCrawlResultAsDocument`:
`crawlResult.fitMarkdown || crawlResult.rawMarkdown ||
crawlResult.markdown || crawlResult.content || ''`. -/
def markdownContent (cr : CrawlInfo) : Str :=
  jsOr cr.fitMarkdown (jsOr cr.rawMarkdown (jsOr cr.markdown cr.content))

/-- `[crawlResult.metadata?.title || '', markdownContent]
.filter(Boolean).join('\n\n')`. -/
def textForEmbedding (cr : CrawlInfo) : Str :=
  joinSeq nl2
    (([cr.title.getD [], markdownContent cr]).filter (fun s => !s.isEmpty))

/-- The row upserted into `crawled_pages`, restricted to the fields the
claims mention; `embedding = none` models the `embedding` column being
absent from the document object. -/
structure StoredDoc where
  url : Str
  chunkNumber : Nat
  content : Str
  embedding : Option (List ℚ)
deriving DecidableEq

/-- `saveCrawlResultAsDocument(crawlResult)` with the embeddings service
and the database abstracted: `configured` is
`embeddingsService.isConfigured()`, `embedRes` the outcome of the
`generateEmbedding` call (an `error` models it throwing, which the
source catches and ignores), and `upsertOk` whether the upsert
succeeds.  Returns the method's own outcome (it rethrows a database
error wrapped in `Failed to save to database`) together with the list
of documents sent to the store. -/
def saveCrawlResultAsDocument (configured : Bool)
    (embedRes : Except Str (List ℚ)) (upsertOk : Bool) (cr : CrawlInfo) :
    Except Str StoredDoc × List StoredDoc :=
  let emb : Option (List ℚ) :=
    if configured && !(trimChars (textForEmbedding cr)).isEmpty then
      match embedRes with
      | .ok v => some v
      | .error _ => none
    else none
  let doc : StoredDoc :=
    ⟨cr.url, cr.pageIndex.getD 1, markdownContent cr, emb⟩
  if upsertOk then (.ok doc, [doc])
  else (.error (("Failed to save to database").data), [doc])

/-- The shape of one entry of the remote `results` array as
`saveIndividualPage` reads it: `mdRaw` is `result.markdown?.raw_markdown`,
`mdStr` the string form of `result.markdown`, `mdFit`
`result.markdown?.fit_markdown`, and absent fields are the empty
string. -/
structure RawPage where
  success : Bool
  url : Str
  mdRaw : Str
  mdStr : Str
  mdFit : Str
  cleanedHtml : Str
  html : Str
  extracted : Str
deriving DecidableEq

/-- `result.markdown?.raw_markdown || result.markdown || ''`. -/
def rawMarkdownOf (r : RawPage) : Str := jsOr r.mdRaw r.mdStr

/-- `result.cleaned_html || result.html || ''`. -/
def htmlContentOf (r : RawPage) : Str := jsOr r.cleanedHtml r.html

/-- The best-available content selection of `saveIndividualPage`:
`fitMarkdown || rawMarkdown || extractedContent || htmlContent || ''`. -/
def bestContentOf (r : RawPage) : Str :=
  jsOr r.mdFit (jsOr (rawMarkdownOf r) (jsOr r.extracted (htmlContentOf r)))

/-- `saveIndividualPage(result)`: skip failed results; build and persist
a page record only when the trimmed best-available content is
non-empty.  The whole body is wrapped in a catch that only logs, so the
second component — whether an exception escapes to the caller — is
`false` on every path regardless of whether the store call fails
(`saveFails`).  The first component lists the URLs for which an upsert
was issued. -/
def saveIndividualPage (saveFails : Bool) (r : RawPage) :
    List Str × Bool :=
  if !r.success then ([], false)
  else if (trimChars (bestContentOf r)).isEmpty then ([], false)
  else
    let _ := saveFails
    ([r.url], false)

/-! ### Lemmas about whitespace runs, trimming and token estimates -/

theorem runsAux_append_le (l : Str) (t : Str) :
    ∀ b, runsAux l b ≤ runsAux (l ++ t) b := by
  induction l with
  | nil => intro b; exact Nat.zero_le _
  | cons c l ih =>
    intro b
    by_cases h : isWsChar c = true
    · simp only [List.cons_append, runsAux, h, if_true]
      exact Nat.add_le_add_left (ih true) _
    · simp only [List.cons_append, runsAux, h, if_false, Bool.false_eq_true]
      exact ih false

theorem runsAux_prefix_le (m : Str)
    (hm : ∀ x, m.head? = some x → isWsChar x = false) :
    ∀ (a : Str) (b : Bool), runsAux m false ≤ runsAux (a ++ m) b := by
  intro a
  induction a with
  | nil =>
    intro b
    cases b with
    | false => exact le_refl _
    | true =>
      cases m with
      | nil => exact le_refl _
      | cons x m' =>
        have hx : isWsChar x = false := hm x rfl
        simp [runsAux, hx]
  | cons c a' ih =>
    intro b
    by_cases h : isWsChar c = true
    · simp only [List.cons_append, runsAux, h, if_true]
      exact le_trans (ih true) (Nat.le_add_left _ _)
    · simp only [List.cons_append, runsAux, h, if_false, Bool.false_eq_true]
      exact ih false

theorem head?_dropWhile_ws (s : Str) :
    ∀ x, (s.dropWhile isWsChar).head? = some x → isWsChar x = false := by
  induction s with
  | nil => intro x hx; simp [List.dropWhile] at hx
  | cons c s' ih =>
    intro x hx
    by_cases h : isWsChar c = true
    · rw [List.dropWhile_cons_of_pos h] at hx
      exact ih x hx
    · rw [List.dropWhile_cons_of_neg h] at hx
      simp only [List.head?_cons, Option.some.injEq] at hx
      rw [← hx]
      exact Bool.not_eq_true _ ▸ Bool.eq_false_iff.mpr h

theorem dropWhile_eq_trimChars_append (s : Str) :
    s.dropWhile isWsChar =
      trimChars s ++
        (((s.dropWhile isWsChar).reverse).takeWhile isWsChar).reverse := by
  have h := congrArg List.reverse
    (List.takeWhile_append_dropWhile isWsChar (s.dropWhile isWsChar).reverse)
  rw [List.reverse_append, List.reverse_reverse] at h
  unfold trimChars
  exact h.symm

theorem trimChars_decomp (s : Str) :
    ∃ lead trail, s = lead ++ trimChars s ++ trail ∧
      (∀ x, (trimChars s).head? = some x → isWsChar x = false) := by
  refine ⟨s.takeWhile isWsChar,
    (((s.dropWhile isWsChar).reverse).takeWhile isWsChar).reverse, ?_, ?_⟩
  · calc s = s.takeWhile isWsChar ++ s.dropWhile isWsChar :=
        (List.takeWhile_append_dropWhile isWsChar s).symm
      _ = s.takeWhile isWsChar ++ (trimChars s ++
            (((s.dropWhile isWsChar).reverse).takeWhile isWsChar).reverse) := by
            rw [← dropWhile_eq_trimChars_append]
      _ = _ := (List.append_assoc _ _ _).symm
  · intro x hx
    apply head?_dropWhile_ws s x
    cases htr : trimChars s with
    | nil => rw [htr] at hx; simp at hx
    | cons y ys =>
      rw [htr] at hx
      simp only [List.head?_cons, Option.some.injEq] at hx
      rw [dropWhile_eq_trimChars_append s, htr, ← hx]
      rfl

theorem countP_reverse (p : Char → Bool) (l : Str) :
    (l.reverse).countP p = l.countP p := by
  rw [List.countP_eq_length_filter, List.countP_eq_length_filter,
    List.filter_reverse, List.length_reverse]

theorem countP_trimChars_le (p : Char → Bool) (s : Str) :
    (trimChars s).countP p ≤ s.countP p := by
  unfold trimChars
  calc ((((s.dropWhile isWsChar).reverse).dropWhile isWsChar).reverse).countP p
      = (((s.dropWhile isWsChar).reverse).dropWhile isWsChar).countP p :=
        countP_reverse p _
    _ ≤ ((s.dropWhile isWsChar).reverse).countP p :=
        (List.dropWhile_sublist isWsChar).countP_le p
    _ = (s.dropWhile isWsChar).countP p := countP_reverse p _
    _ ≤ s.countP p := (List.dropWhile_sublist isWsChar).countP_le p

theorem estTokens_trimChars_le (s : Str) :
    estTokens (trimChars s) ≤ estTokens s := by
  have hruns : runsAux (trimChars s) false ≤ runsAux s false := by
    obtain ⟨lead, trail, hdec, hhead⟩ := trimChars_decomp s
    calc runsAux (trimChars s) false
        ≤ runsAux (lead ++ trimChars s) false :=
          runsAux_prefix_le (trimChars s) hhead lead false
      _ ≤ runsAux (lead ++ trimChars s ++ trail) false :=
          runsAux_append_le _ _ false
      _ = runsAux s false := by rw [← hdec]
  have hwords : wordsCount (trimChars s) ≤ wordsCount s :=
    Nat.add_le_add_right hruns 1
  have hpunct : punctCount (trimChars s) ≤ punctCount s :=
    countP_trimChars_le isPunctChar s
  have hws : wsCount (trimChars s) ≤ wsCount s :=
    countP_trimChars_le isWsChar s
  exact Nat.add_le_add (Nat.add_le_add hwords hpunct)
    (Nat.div_le_div_right (Nat.add_le_add_right hws 3))

theorem mem_trimChars {x : Char} {s : Str} (hx : x ∈ trimChars s) :
    x ∈ s := by
  unfold trimChars at hx
  rw [List.mem_reverse] at hx
  have hx2 := (List.dropWhile_sublist isWsChar).subset hx
  rw [List.mem_reverse] at hx2
  exact (List.dropWhile_sublist isWsChar).subset hx2

theorem nonWs_append (a b : Str) : nonWs (a ++ b) = nonWs a ++ nonWs b :=
  List.filter_append a b

theorem nonWs_reverse (l : Str) : nonWs l.reverse = (nonWs l).reverse :=
  List.filter_reverse _ l

theorem nonWs_dropWhile (s : Str) :
    nonWs (s.dropWhile isWsChar) = nonWs s := by
  induction s with
  | nil => rfl
  | cons c s' ih =>
    by_cases h : isWsChar c = true
    · rw [List.dropWhile_cons_of_pos h, ih]
      unfold nonWs
      rw [List.filter_cons]
      simp [h]
    · rw [List.dropWhile_cons_of_neg h]

theorem nonWs_trimChars (s : Str) : nonWs (trimChars s) = nonWs s := by
  unfold trimChars
  rw [nonWs_reverse, nonWs_dropWhile, nonWs_reverse, List.reverse_reverse,
    nonWs_dropWhile]

theorem nonWs_nl2 : nonWs nl2 = [] := by decide

theorem trimChars_eq_nil_iff (s : Str) :
    trimChars s = [] ↔ ∀ x ∈ s, isWsChar x = true := by
  unfold trimChars
  rw [List.reverse_eq_nil_iff, List.dropWhile_eq_nil_iff]
  constructor
  · intro h x hx
    rcases List.mem_append.mp
        ((List.takeWhile_append_dropWhile isWsChar s) ▸ hx) with h1 | h1
    · exact List.mem_takeWhile_imp h1
    · exact h x (List.mem_reverse.mpr h1)
  · intro h x hx
    exact h x ((List.dropWhile_sublist isWsChar).subset (List.mem_reverse.mp hx))

theorem isPrefixOf_append_drop :
    ∀ (sep t : Str), sep.isPrefixOf t = true →
      sep ++ t.drop sep.length = t := by
  intro sep
  induction sep with
  | nil => intro t _; simp
  | cons a as ih =>
    intro t h
    cases t with
    | nil => simp [List.isPrefixOf] at h
    | cons b bs =>
      simp only [List.isPrefixOf, Bool.and_eq_true, beq_iff_eq] at h
      obtain ⟨hab, hpre⟩ := h
      have := ih bs hpre
      simp only [List.length_cons, List.drop_succ_cons, List.cons_append]
      rw [this, hab]

theorem splitOnSeqGo_ne_nil (sep : Str) :
    ∀ fuel t, splitOnSeqGo sep fuel t ≠ [] := by
  intro fuel
  induction fuel with
  | zero => intro t; simp [splitOnSeqGo]
  | succ fuel ih =>
    intro t
    cases t with
    | nil => simp [splitOnSeqGo]
    | cons c rest =>
      by_cases h : sep.isPrefixOf (c :: rest) = true
      · simp [splitOnSeqGo, h]
      · simp only [splitOnSeqGo, h, Bool.false_eq_true, if_false]
        cases hx : splitOnSeqGo sep fuel rest with
        | nil => simp
        | cons s ss => simp

theorem joinSeq_splitOnSeqGo (sep : Str) :
    ∀ fuel t, joinSeq sep (splitOnSeqGo sep fuel t) = t := by
  intro fuel
  induction fuel with
  | zero => intro t; rfl
  | succ fuel ih =>
    intro t
    cases t with
    | nil => rfl
    | cons c rest =>
      by_cases h : sep.isPrefixOf (c :: rest) = true
      · simp only [splitOnSeqGo, h, if_true]
        cases hx : splitOnSeqGo sep fuel ((c :: rest).drop sep.length) with
        | nil => exact absurd hx (splitOnSeqGo_ne_nil sep fuel _)
        | cons x xs =>
          have hix : joinSeq sep (x :: xs) = (c :: rest).drop sep.length := by
            rw [← hx]; exact ih _
          calc joinSeq sep ([] :: x :: xs)
              = [] ++ sep ++ joinSeq sep (x :: xs) := rfl
            _ = sep ++ ((c :: rest).drop sep.length) := by rw [hix]; rfl
            _ = c :: rest := isPrefixOf_append_drop sep (c :: rest) h
      · simp only [splitOnSeqGo, h, Bool.false_eq_true, if_false]
        cases hx : splitOnSeqGo sep fuel rest with
        | nil => exact absurd hx (splitOnSeqGo_ne_nil sep fuel _)
        | cons s ss =>
          have hix : joinSeq sep (s :: ss) = rest := by rw [← hx]; exact ih _
          cases ss with
          | nil =>
            simp only [joinSeq] at hix
            simp only [joinSeq, hix]
          | cons y ys =>
            calc joinSeq sep ((c :: s) :: y :: ys)
                = (c :: s) ++ sep ++ joinSeq sep (y :: ys) := rfl
              _ = c :: (s ++ sep ++ joinSeq sep (y :: ys)) := by
                  simp [List.cons_append]
              _ = c :: joinSeq sep (s :: y :: ys) := rfl
              _ = c :: rest := by rw [hix]

theorem joinSeq_splitOnSeq (sep t : Str) :
    joinSeq sep (splitOnSeq sep t) = t :=
  joinSeq_splitOnSeqGo sep t.length t

theorem splitOnChar_ne_nil (sep : Char) :
    ∀ t, splitOnChar sep t ≠ [] := by
  intro t
  induction t with
  | nil => simp [splitOnChar]
  | cons c rest ih =>
    by_cases h : c = sep
    · simp [splitOnChar, h]
    · simp only [splitOnChar, h, if_false]
      cases hx : splitOnChar sep rest with
      | nil => simp
      | cons s ss => simp

theorem splitOnChar_not_mem (sep : Char) :
    ∀ t p, p ∈ splitOnChar sep t → sep ∉ p := by
  intro t
  induction t with
  | nil =>
    intro p hp
    simp only [splitOnChar, List.mem_singleton] at hp
    subst hp; simp
  | cons c rest ih =>
    intro p hp
    by_cases h : c = sep
    · simp only [splitOnChar, h, if_true] at hp
      rcases List.mem_cons.mp hp with h1 | h1
      · subst h1; simp
      · exact ih p h1
    · simp only [splitOnChar, h, if_false] at hp
      cases hx : splitOnChar sep rest with
      | nil => exact absurd hx (splitOnChar_ne_nil sep rest)
      | cons s ss =>
        rw [hx] at hp
        rcases List.mem_cons.mp hp with h1 | h1
        · subst h1
          intro hmem
          rcases List.mem_cons.mp hmem with h2 | h2
          · exact h h2.symm
          · exact ih s (hx ▸ List.mem_cons_self s ss) h2
        · exact ih p (hx ▸ List.mem_cons.mpr (Or.inr h1))

/-! ### Invariants of the chunking loops -/

/-- The property claim C7 asserts of every produced chunk: it fits the
token bound, or it is a single atomic word of the code's space-splitting
(it contains no space character). -/
def chunkOk (M : Nat) (c : Str) : Prop := estTokens c ≤ M ∨ ' ' ∉ c

/-- Invariant carried through all three chunking loops: every chunk
pushed so far satisfies `chunkOk`, and so does the running chunk. -/
def stateOk (M : Nat) (st : CState) : Prop :=
  (∀ c ∈ st.chunks, chunkOk M c) ∧ chunkOk M st.cur

theorem chunkOk_trimChars {M : Nat} {s : Str} (h : chunkOk M s) :
    chunkOk M (trimChars s) := by
  cases h with
  | inl h => exact Or.inl (le_trans (estTokens_trimChars_le s) h)
  | inr h => exact Or.inr (fun hm => h (mem_trimChars hm))

theorem stateOk_pushCur {M : Nat} {st : CState} (h : stateOk M st) :
    stateOk M (pushCur st) := by
  refine ⟨?_, Or.inr (by simp [pushCur])⟩
  intro c hc
  rcases List.mem_append.mp hc with h1 | h1
  · exact h.1 c h1
  · rw [List.mem_singleton] at h1
    subst h1
    exact chunkOk_trimChars h.2

theorem wordStep_ok {M : Nat} {st : CState} {w : Str}
    (hw : ' ' ∉ w) (h : stateOk M st) : stateOk M (wordStep M st w) := by
  unfold wordStep
  by_cases h1 : estTokens (if st.cur.isEmpty then w
      else st.cur ++ [' '] ++ w) ≤ M
  · simp only [h1, if_true]
    exact ⟨h.1, Or.inl h1⟩
  · simp only [h1, if_false]
    by_cases h2 : st.cur.isEmpty
    · simp only [h2, if_true]
      exact ⟨h.1, Or.inr hw⟩
    · simp only [h2, Bool.false_eq_true, if_false]
      refine ⟨?_, Or.inr hw⟩
      intro c hc
      rcases List.mem_append.mp hc with h3 | h3
      · exact h.1 c h3
      · rw [List.mem_singleton] at h3
        subst h3
        exact chunkOk_trimChars h.2

theorem foldl_wordStep_ok {M : Nat} :
    ∀ (ws : List Str) (st : CState), (∀ w ∈ ws, ' ' ∉ w) → stateOk M st →
      stateOk M (ws.foldl (wordStep M) st) := by
  intro ws
  induction ws with
  | nil => intro st _ h; exact h
  | cons w ws ih =>
    intro st hws h
    exact ih _ (fun v hv => hws v (List.mem_cons.mpr (Or.inr hv)))
      (wordStep_ok (hws w (List.mem_cons_self w ws)) h)

theorem sentenceStep_ok {M : Nat} {st : CState} {s : Str}
    (h : stateOk M st) : stateOk M (sentenceStep M st s) := by
  unfold sentenceStep
  by_cases h1 : estTokens (if st.cur.isEmpty then s
      else st.cur ++ dotSpace ++ s) ≤ M
  · simp only [h1, if_true]
    exact ⟨h.1, Or.inl h1⟩
  · simp only [h1, if_false]
    have hst1 : stateOk M (if st.cur.isEmpty then st else pushCur st) := by
      by_cases h2 : st.cur.isEmpty
      · simp only [h2, if_true]; exact h
      · simp only [h2, Bool.false_eq_true, if_false]
        exact stateOk_pushCur h
    by_cases h3 : M < estTokens s
    · simp only [h3, if_true]
      exact foldl_wordStep_ok _ _
        (fun w hw => splitOnChar_not_mem ' ' s w hw) hst1
    · simp only [h3, if_false]
      exact ⟨hst1.1, Or.inl (le_of_not_lt h3)⟩

theorem foldl_sentenceStep_ok {M : Nat} :
    ∀ (ss : List Str) (st : CState), stateOk M st →
      stateOk M (ss.foldl (sentenceStep M) st) := by
  intro ss
  induction ss with
  | nil => intro st h; exact h
  | cons s ss ih => intro st h; exact ih _ (sentenceStep_ok h)

theorem paragraphStep_ok {M : Nat} {st : CState} {p : Str}
    (h : stateOk M st) : stateOk M (paragraphStep M st p) := by
  unfold paragraphStep
  by_cases h1 : estTokens (if st.cur.isEmpty then p
      else st.cur ++ nl2 ++ p) ≤ M
  · simp only [h1, if_true]
    exact ⟨h.1, Or.inl h1⟩
  · simp only [h1, if_false]
    have hst1 : stateOk M (if st.cur.isEmpty then st else pushCur st) := by
      by_cases h2 : st.cur.isEmpty
      · simp only [h2, if_true]; exact h
      · simp only [h2, Bool.false_eq_true, if_false]
        exact stateOk_pushCur h
    by_cases h3 : M < estTokens p
    · simp only [h3, if_true]
      exact foldl_sentenceStep_ok _ _ hst1
    · simp only [h3, if_false]
      exact ⟨hst1.1, Or.inl (le_of_not_lt h3)⟩

theorem foldl_paragraphStep_ok {M : Nat} :
    ∀ (ps : List Str) (st : CState), stateOk M st →
      stateOk M (ps.foldl (paragraphStep M) st) := by
  intro ps
  induction ps with
  | nil => intro st h; exact h
  | cons p ps ih => intro st h; exact ih _ (paragraphStep_ok h)

theorem chunkText_chunkOk (t : Str) (M : Nat) :
    ∀ c ∈ chunkText t M, chunkOk M c := by
  intro c hc
  unfold chunkText at hc
  by_cases h : estTokens t ≤ M
  · rw [if_pos h] at hc
    rw [List.mem_singleton] at hc
    subst hc
    exact Or.inl h
  · rw [if_neg h] at hc
    have hst : stateOk M ((splitOnSeq nl2 t).foldl (paragraphStep M)
        ⟨[], []⟩) :=
      foldl_paragraphStep_ok _ _ ⟨by simp, Or.inr (by simp)⟩
    have hc2 := (List.mem_filter.mp hc).1
    by_cases h2 : (trimChars ((splitOnSeq nl2 t).foldl (paragraphStep M)
        ⟨[], []⟩).cur).isEmpty
    · rw [if_pos h2] at hc2
      exact hst.1 c hc2
    · rw [if_neg h2] at hc2
      rcases List.mem_append.mp hc2 with h3 | h3
      · exact hst.1 c h3
      · rw [List.mem_singleton] at h3
        subst h3
        exact chunkOk_trimChars hst.2

/-- The non-whitespace content already committed to `chunks`. -/
def chunksNonWs (cs : List Str) : Str := (cs.map nonWs).flatten

/-- The non-whitespace content held by a chunking state: committed
chunks followed by the running chunk. -/
def stA (st : CState) : Str := chunksNonWs st.chunks ++ nonWs st.cur

theorem chunksNonWs_append_singleton (cs : List Str) (c : Str) :
    chunksNonWs (cs ++ [c]) = chunksNonWs cs ++ nonWs c := by
  unfold chunksNonWs
  rw [List.map_append, List.flatten_append]
  simp

theorem stA_pushCur (st : CState) : stA (pushCur st) = stA st := by
  unfold stA pushCur
  simp only [chunksNonWs_append_singleton, nonWs_trimChars]
  simp [nonWs, List.append_assoc]

theorem paragraphStep_stA {M : Nat} {st : CState} {p : Str}
    (hp : estTokens p ≤ M) :
    stA (paragraphStep M st p) = stA st ++ nonWs p := by
  unfold paragraphStep
  by_cases h1 : estTokens (if st.cur.isEmpty then p
      else st.cur ++ nl2 ++ p) ≤ M
  · rw [if_pos h1]
    by_cases h2 : st.cur.isEmpty
    · have hcur : st.cur = [] := List.isEmpty_iff.mp h2
      simp only [h2, if_true]
      unfold stA
      simp [hcur, nonWs, List.append_assoc]
    · have h2' : st.cur.isEmpty = false := Bool.eq_false_iff.mpr h2
      simp only [h2', Bool.false_eq_true, if_false]
      unfold stA
      simp only []
      rw [nonWs_append, nonWs_append, nonWs_nl2, List.append_nil,
        List.append_assoc]
  · rw [if_neg h1]
    have hnp : ¬ M < estTokens p := not_lt.mpr hp
    rw [if_neg hnp]
    by_cases h2 : st.cur.isEmpty
    · have hcur : st.cur = [] := List.isEmpty_iff.mp h2
      simp only [h2, if_true]
      unfold stA
      simp [hcur, nonWs]
    · have h2' : st.cur.isEmpty = false := Bool.eq_false_iff.mpr h2
      simp only [h2', Bool.false_eq_true, if_false]
      unfold stA
      simp only [pushCur, chunksNonWs_append_singleton, nonWs_trimChars]

theorem foldl_paragraphStep_stA {M : Nat} :
    ∀ (ps : List Str) (st : CState), (∀ p ∈ ps, estTokens p ≤ M) →
      stA (ps.foldl (paragraphStep M) st) =
        stA st ++ (ps.map nonWs).flatten := by
  intro ps
  induction ps with
  | nil => intro st _; simp
  | cons p ps ih =>
    intro st hps
    rw [List.foldl_cons,
      ih _ (fun q hq => hps q (List.mem_cons.mpr (Or.inr hq))),
      paragraphStep_stA (hps p (List.mem_cons_self p ps))]
    simp [List.append_assoc]

theorem chunksNonWs_filter (cs : List Str) :
    chunksNonWs (cs.filter (fun c => !c.isEmpty)) = chunksNonWs cs := by
  induction cs with
  | nil => rfl
  | cons c cs ih =>
    by_cases h : c.isEmpty
    · have hc : c = [] := List.isEmpty_iff.mp h
      rw [List.filter_cons]
      simp only [h, Bool.not_true, Bool.false_eq_true, if_false]
      unfold chunksNonWs at *
      simp [hc, nonWs, ih]
    · have h' : c.isEmpty = false := Bool.eq_false_iff.mpr h
      rw [List.filter_cons]
      simp only [h', Bool.not_false, if_true]
      unfold chunksNonWs at *
      simp [ih]

theorem nonWs_joinSeq {sep : Str} (hsep : nonWs sep = []) :
    ∀ cs, nonWs (joinSeq sep cs) = chunksNonWs cs := by
  intro cs
  induction cs with
  | nil => rfl
  | cons c cs ih =>
    cases cs with
    | nil => simp [joinSeq, chunksNonWs]
    | cons c' cs' =>
      calc nonWs (joinSeq sep (c :: c' :: cs'))
          = nonWs (c ++ sep ++ joinSeq sep (c' :: cs')) := rfl
        _ = nonWs c ++ nonWs sep ++ nonWs (joinSeq sep (c' :: cs')) := by
            rw [nonWs_append, nonWs_append]
        _ = nonWs c ++ chunksNonWs (c' :: cs') := by
            rw [hsep, List.append_nil, ih]
        _ = chunksNonWs (c :: c' :: cs') := by
            unfold chunksNonWs
            simp

/-! ### Stability of the priority sort -/

theorem filter_orderedInsert_eq (x : Str) (k : Int)
    (hx : priorityOf x = k) :
    ∀ l, (List.orderedInsert priLe x l).filter
        (fun u => decide (priorityOf u = k)) =
      x :: l.filter (fun u => decide (priorityOf u = k)) := by
  intro l
  induction l with
  | nil => simp [List.orderedInsert, hx]
  | cons y l ih =>
    by_cases h : priLe x y
    · rw [List.orderedInsert, if_pos h]
      rw [List.filter_cons]
      simp [hx]
    · rw [List.orderedInsert, if_neg h]
      have hy : ¬ priorityOf y = k := by
        intro hk
        apply h
        unfold priLe
        rw [hx, hk]
      rw [List.filter_cons]
      simp only [hy, decide_eq_true_eq, if_false]
      rw [ih, List.filter_cons]
      simp [hy]

theorem filter_orderedInsert_ne (x : Str) (k : Int)
    (hx : ¬ priorityOf x = k) :
    ∀ l, (List.orderedInsert priLe x l).filter
        (fun u => decide (priorityOf u = k)) =
      l.filter (fun u => decide (priorityOf u = k)) := by
  intro l
  induction l with
  | nil => simp [List.orderedInsert, hx]
  | cons y l ih =>
    by_cases h : priLe x y
    · rw [List.orderedInsert, if_pos h]
      rw [List.filter_cons]
      simp [hx]
    · rw [List.orderedInsert, if_neg h]
      rw [List.filter_cons, List.filter_cons, ih]

theorem insertionSort_stable_filter (k : Int) :
    ∀ l : List Str, (List.insertionSort priLe l).filter
        (fun u => decide (priorityOf u = k)) =
      l.filter (fun u => decide (priorityOf u = k)) := by
  intro l
  induction l with
  | nil => rfl
  | cons x l ih =>
    rw [List.insertionSort]
    by_cases hx : priorityOf x = k
    · rw [filter_orderedInsert_eq x k hx, ih, List.filter_cons]
      simp [hx]
    · rw [filter_orderedInsert_ne x k hx, ih, List.filter_cons]
      simp [hx]

/-! ### Lemmas about component-wise vector accumulation -/

theorem zipAdd_getD :
    ∀ (a b : List ℚ) (i : Nat), i < a.length → i < b.length →
      (a.zipWith (· + ·) b).getD i 0 = a.getD i 0 + b.getD i 0 := by
  intro a
  induction a with
  | nil => intro b i hi _; simp at hi
  | cons x a ih =>
    intro b i hi hbi
    cases b with
    | nil => simp at hbi
    | cons y b =>
      cases i with
      | zero => simp [List.zipWith]
      | succ n =>
        simp only [List.zipWith, List.getD_cons_succ]
        exact ih b n (Nat.lt_of_succ_lt_succ hi) (Nat.lt_of_succ_lt_succ hbi)

theorem foldl_zipAdd_length :
    ∀ (vs : List (List ℚ)) (acc : List ℚ),
      (∀ v ∈ vs, v.length = acc.length) →
      (vs.foldl (fun a e => a.zipWith (· + ·) e) acc).length = acc.length := by
  intro vs
  induction vs with
  | nil => intro acc _; rfl
  | cons v vs ih =>
    intro acc hl
    rw [List.foldl_cons]
    have hv : v.length = acc.length := hl v (List.mem_cons_self v vs)
    have hz : (acc.zipWith (· + ·) v).length = acc.length := by
      rw [List.length_zipWith, hv]
      exact Nat.min_self _
    rw [ih _ (fun w hw => by
      rw [hz]
      exact hl w (List.mem_cons.mpr (Or.inr hw))), hz]

theorem foldl_zipAdd_getD :
    ∀ (vs : List (List ℚ)) (acc : List ℚ) (i : Nat), i < acc.length →
      (∀ v ∈ vs, v.length = acc.length) →
      (vs.foldl (fun a e => a.zipWith (· + ·) e) acc).getD i 0 =
        acc.getD i 0 + (vs.map (fun v => v.getD i 0)).sum := by
  intro vs
  induction vs with
  | nil => intro acc i _ _; simp
  | cons v vs ih =>
    intro acc i hi hl
    have hv : v.length = acc.length := hl v (List.mem_cons_self v vs)
    have hz : (acc.zipWith (· + ·) v).length = acc.length := by
      rw [List.length_zipWith, hv]
      exact Nat.min_self _
    rw [List.foldl_cons,
      ih _ i (by rw [hz]; exact hi)
        (fun w hw => by rw [hz]; exact hl w (List.mem_cons.mpr (Or.inr hw))),
      zipAdd_getD acc v i hi (by rw [hv]; exact hi)]
    simp [add_assoc]

theorem getD_replicate_zero (D i : Nat) :
    (List.replicate D (0 : ℚ)).getD i 0 = 0 := by
  induction D generalizing i with
  | zero => simp [List.replicate]
  | succ n ih =>
    cases i with
    | zero => simp [List.replicate]
    | succ m => simp [List.replicate, ih m]

theorem getD_map_of_lt (l : List ℚ) (f : ℚ → ℚ) :
    ∀ i, i < l.length → (l.map f).getD i 0 = f (l.getD i 0) := by
  induction l with
  | nil => intro i hi; simp at hi
  | cons x l ih =>
    intro i hi
    cases i with
    | zero => simp
    | succ n =>
      simp only [List.map_cons, List.getD_cons_succ]
      exact ih n (Nat.lt_of_succ_lt_succ hi)

/-! ### Lemmas about the batch scheduler -/

theorem retryGo_allFail (crawlB : List Str → Nat → Except Unit (List PageRec))
    (batch : List Str) (bIdx coolOff R : Nat)
    (hfail : ∀ a, crawlB batch a = .error ()) :
    ∀ fuel rc, rc + fuel = R →
      retryGo crawlB batch bIdx coolOff R rc fuel =
        (((List.range' (rc + 1) fuel).map
          (fun a => BatchEvent.attempt bIdx a ::
            (if a < R then [BatchEvent.retryDelay (coolOff * a)]
             else []))).flatten, []) := by
  intro fuel
  induction fuel with
  | zero => intro rc _; simp [retryGo]
  | succ fuel ih =>
    intro rc hrc
    rw [retryGo]
    simp only [hfail (rc + 1)]
    by_cases h : rc + 1 < R
    · rw [if_pos h]
      rw [ih (rc + 1) (by omega)]
      rw [List.range'_succ]
      simp [h]
    · rw [if_neg h]
      have hfz : fuel = 0 := by omega
      subst hfz
      rw [List.range'_succ]
      simp [h]

theorem schedGo_results (crawlB : List Str → Nat → Except Unit (List PageRec))
    (coolOff R : Nat) :
    ∀ (bs : List (List Str)) (i : Nat),
      (schedGo crawlB coolOff R i bs).2 =
        ((List.enumFrom i bs).map
          (fun p => (runBatch crawlB p.2 p.1 coolOff R).2)).flatten := by
  intro bs
  induction bs with
  | nil => intro i; rfl
  | cons b rest ih =>
    intro i
    simp only [schedGo, List.enumFrom, List.map_cons, List.flatten_cons]
    rw [ih (i + 1)]

/-! ### Helper facts for the URL filter and the persistence adapter -/

theorem urlAccept_none {bp : UrlParts} {u : Str}
    (hp : parseUrl u = none) : urlAccept bp u = false := by
  unfold urlAccept
  rw [hp]

theorem urlAccept_some {bp p : UrlParts} {u : Str}
    (hp : parseUrl u = some p) :
    urlAccept bp u =
      (if ¬ (p.hostname = bp.hostname) then false
       else if skipExtensions.any
           (fun e => e.isSuffixOf (toLowerStr p.pathname)) then false
       else if lowValueHit u then false else true) := by
  unfold urlAccept
  rw [hp]

theorem urlAccept_host {bp : UrlParts} {u : Str}
    (h : urlAccept bp u = true) :
    ∃ p, parseUrl u = some p ∧ p.hostname = bp.hostname := by
  cases hp : parseUrl u with
  | none => rw [urlAccept_none hp] at h; simp at h
  | some p =>
    rw [urlAccept_some hp] at h
    by_cases h1 : ¬ (p.hostname = bp.hostname)
    · rw [if_pos h1] at h; simp at h
    · exact ⟨p, rfl, not_not.mp h1⟩

theorem mem_textForEmbedding {cr : CrawlInfo} {x : Char}
    (hmc : markdownContent cr ≠ []) (hx : x ∈ markdownContent cr) :
    x ∈ textForEmbedding cr := by
  have hmce : (markdownContent cr).isEmpty = false :=
    Bool.eq_false_iff.mpr (fun hh => hmc (List.isEmpty_iff.mp hh))
  unfold textForEmbedding
  by_cases ht : (cr.title.getD []).isEmpty
  · have hfil : ([cr.title.getD [], markdownContent cr].filter
        (fun s => !s.isEmpty)) = [markdownContent cr] := by
      simp [List.filter, ht, hmce]
    rw [hfil]
    exact hx
  · have ht' : (cr.title.getD []).isEmpty = false := Bool.eq_false_iff.mpr ht
    have hfil : ([cr.title.getD [], markdownContent cr].filter
        (fun s => !s.isEmpty)) = [cr.title.getD [], markdownContent cr] := by
      simp [List.filter, ht', hmce]
    rw [hfil]
    show x ∈ cr.title.getD [] ++ nl2 ++ markdownContent cr
    exact List.mem_append.mpr (Or.inr hx)

theorem textForEmbedding_trim_ne (cr : CrawlInfo)
    (h : (trimChars (markdownContent cr)).isEmpty = false) :
    (trimChars (textForEmbedding cr)).isEmpty = false := by
  apply Bool.eq_false_iff.mpr
  intro htrue
  have hall : ∀ x ∈ textForEmbedding cr, isWsChar x = true :=
    (trimChars_eq_nil_iff _).mp (List.isEmpty_iff.mp htrue)
  have hmc_ne : trimChars (markdownContent cr) ≠ [] := by
    intro hh
    rw [hh] at h
    simp at h
  have hnall : ¬ ∀ x ∈ markdownContent cr, isWsChar x = true :=
    fun hws => hmc_ne ((trimChars_eq_nil_iff _).mpr hws)
  push_neg at hnall
  obtain ⟨x, hx, hxws⟩ := hnall
  have hmcne : markdownContent cr ≠ [] := by
    intro hh
    rw [hh] at hx
    simp at hx
  exact hxws (hall x (mem_textForEmbedding hmcne hx))

/-! ### Claim theorems -/

/-- C7: for every text `T` and bound `M`, if the estimated token count of
`T` is at most `M` then `chunkText` returns the one-element list `[T]`;
otherwise every returned chunk either fits the bound or is a single
atomic word of the code's space-splitting (it contains no space
character) whose own estimate exceeds `M`. -/
theorem chunkText_fit_or_atomic_overflow (t : Str) (M : Nat) :
    (estTokens t ≤ M → chunkText t M = [t]) ∧
    (∀ c ∈ chunkText t M,
      estTokens c ≤ M ∨ (' ' ∉ c ∧ M < estTokens c)) := by
  constructor
  · intro h
    unfold chunkText
    rw [if_pos h]
  · intro c hc
    rcases chunkText_chunkOk t M c hc with h | h
    · exact Or.inl h
    · by_cases h2 : estTokens c ≤ M
      · exact Or.inl h2
      · exact Or.inr ⟨h, lt_of_not_le h2⟩

/-- Witness for C7 at a concrete input: a short text fits the bound and
is returned whole. -/
theorem chunkText_fit_or_atomic_overflow_witness :
    estTokens (("ab").data) ≤ 10 ∧
      chunkText (("ab").data) 10 = [("ab").data] :=
  ⟨by decide, (chunkText_fit_or_atomic_overflow (("ab").data) 10).1 (by decide)⟩

/-- C2 (counterexample): the sentence-boundary split of `chunkText`
discards the `[.!?]+` separators and rejoins with `". "`, so the chunks
can contain a period absent from the original text and lose its
exclamation marks: chunking `a!!!!!!! b` at bound 5 yields the single
chunk `a.  b`, whose non-whitespace content differs from the input's. -/
theorem chunkText_roundTrip_counterexample :
    chunkText (("a!!!!!!! b").data) 5 = [("a.  b").data] ∧
    nonWs (joinSeq nl2 (chunkText (("a!!!!!!! b").data) 5)) ≠
      nonWs (("a!!!!!!! b").data) ∧
    '.' ∈ (("a.  b").data) ∧ '.' ∉ (("a!!!!!!! b").data) := by
  refine ⟨by decide, by decide, by decide, by decide⟩

/-- C2 (amended): when every paragraph of `T` individually fits the
bound — so the lossy sentence/word fallback never fires — rejoining the
chunks with the paragraph separator `"\n\n"` reproduces the
non-whitespace content of `T` exactly. -/
theorem chunkText_roundTrip_paragraphs (t : Str) (M : Nat)
    (hp : ∀ p ∈ splitOnSeq nl2 t, estTokens p ≤ M) :
    nonWs (joinSeq nl2 (chunkText t M)) = nonWs t := by
  by_cases h : estTokens t ≤ M
  · unfold chunkText
    rw [if_pos h]
    rfl
  · unfold chunkText
    rw [if_neg h]
    rw [nonWs_joinSeq nonWs_nl2, chunksNonWs_filter]
    have hA : stA ((splitOnSeq nl2 t).foldl (paragraphStep M) ⟨[], []⟩) =
        ((splitOnSeq nl2 t).map nonWs).flatten := by
      rw [foldl_paragraphStep_stA _ _ hp]
      simp [stA, chunksNonWs, nonWs]
    have hgoal : chunksNonWs
        (if (trimChars ((splitOnSeq nl2 t).foldl (paragraphStep M)
            ⟨[], []⟩).cur).isEmpty then
          ((splitOnSeq nl2 t).foldl (paragraphStep M) ⟨[], []⟩).chunks
        else ((splitOnSeq nl2 t).foldl (paragraphStep M) ⟨[], []⟩).chunks ++
          [trimChars ((splitOnSeq nl2 t).foldl (paragraphStep M)
            ⟨[], []⟩).cur]) =
        ((splitOnSeq nl2 t).map nonWs).flatten := by
      by_cases h2 : (trimChars ((splitOnSeq nl2 t).foldl (paragraphStep M)
          ⟨[], []⟩).cur).isEmpty
      · rw [if_pos h2]
        have hcur : nonWs ((splitOnSeq nl2 t).foldl (paragraphStep M)
            ⟨[], []⟩).cur = [] := by
          rw [← nonWs_trimChars, List.isEmpty_iff.mp h2]
          rfl
        rw [← hA]
        unfold stA
        rw [hcur, List.append_nil]
      · rw [if_neg h2]
        rw [chunksNonWs_append_singleton, nonWs_trimChars]
        exact hA
    rw [hgoal]
    conv_rhs => rw [← joinSeq_splitOnSeq nl2 t]
    rw [nonWs_joinSeq nonWs_nl2]
    rfl

/-- Witness for the amended C2 at a concrete input: three short
paragraphs, each fitting the bound, chunked and rejoined losslessly up
to whitespace. -/
theorem chunkText_roundTrip_paragraphs_witness :
    (∀ p ∈ splitOnSeq nl2 (("ab\n\ncd\n\nef").data), estTokens p ≤ 2) ∧
    nonWs (joinSeq nl2 (chunkText (("ab\n\ncd\n\nef").data) 2)) =
      nonWs (("ab\n\ncd\n\nef").data) :=
  ⟨by decide, chunkText_roundTrip_paragraphs (("ab\n\ncd\n\nef").data) 2
    (by decide)⟩

/-- C1 (counterexample): `filterAndPrioritizeUrls` contains no
deduplication step, so a link that is discovered twice appears twice in
its output — the returned list can contain duplicate addresses. -/
theorem filterAndPrioritizeUrls_dup_counterexample :
    filterAndPrioritizeUrls
      [("https://a.com/x").data, ("https://a.com/x").data]
      (("https://a.com/").data) 5 =
      some [("https://a.com/x").data, ("https://a.com/x").data] ∧
    ¬ ([("https://a.com/x").data, ("https://a.com/x").data] :
        List Str).Nodup := by
  exact ⟨by decide, by decide⟩

/-- C1 (amended): when the base address parses, every address in the
output of `filterAndPrioritizeUrls` parses and shares the base's
hostname, and the output length is at most the configured maximum;
duplicate input addresses, however, may be retained. -/
theorem filterAndPrioritizeUrls_host_and_bound
    (urls : List Str) (baseUrl : Str) (maxUrls : Nat)
    (bp : UrlParts) (out : List Str)
    (hb : parseUrl baseUrl = some bp)
    (hout : filterAndPrioritizeUrls urls baseUrl maxUrls = some out) :
    (∀ u ∈ out, ∃ p, parseUrl u = some p ∧ p.hostname = bp.hostname) ∧
    out.length ≤ maxUrls := by
  unfold filterAndPrioritizeUrls at hout
  rw [hb] at hout
  have hout' : (prioritizeUrls (urls.filter (urlAccept bp))).take maxUrls
      = out := Option.some.inj hout
  constructor
  · intro u hu
    rw [← hout'] at hu
    have h1 : u ∈ prioritizeUrls (urls.filter (urlAccept bp)) :=
      (List.take_sublist _ _).subset hu
    unfold prioritizeUrls at h1
    have h2 : u ∈ urls.filter (urlAccept bp) :=
      ((List.perm_insertionSort priLe _).mem_iff).mp h1
    exact urlAccept_host (List.mem_filter.mp h2).2
  · rw [← hout', List.length_take]
    exact min_le_left _ _

/-- Witness for the amended C1 at a concrete input. -/
theorem filterAndPrioritizeUrls_host_and_bound_witness :
    (∀ u ∈ [("https://a.com/x").data],
      ∃ p, parseUrl u = some p ∧ p.hostname = ("a.com").data) ∧
    ([("https://a.com/x").data] : List Str).length ≤ 3 :=
  filterAndPrioritizeUrls_host_and_bound
    [("https://a.com/x").data] (("https://a.com/").data) 3
    ⟨("a.com").data, ("/").data⟩ [("https://a.com/x").data]
    (by decide) (by decide)

/-- C9 (counterexample): the code's keyword set is
docs, documentation, api, guide, tutorial, blog, news, product — it does
not contain `reference` — so `/reference/x` gets no depth bonus.  Under
the claim's key (which includes `reference`), `/reference/x` and `/b`
tie at priority 1 and should keep their discovery order, but the code
sorts `/b` first. -/
theorem filterAndPrioritizeUrls_keyword_counterexample :
    filterAndPrioritizeUrls
      [("https://a.com/reference/x").data, ("https://a.com/b").data]
      (("https://a.com/").data) 10 =
      some [("https://a.com/b").data, ("https://a.com/reference/x").data] ∧
    specPriorityOf (("https://a.com/reference/x").data) =
      specPriorityOf (("https://a.com/b").data) := by
  exact ⟨by decide, by decide⟩

/-- C9 (amended): the output of `filterAndPrioritizeUrls` is ordered
ascending by the code's priority key (path depth, minus one when one of
the keywords docs, documentation, api, guide, tutorial, blog, news,
product occurs case-insensitively anywhere in the URL), and the sort is
stable: for every key value, the accepted URLs with that key appear in
their original discovery order. -/
theorem filterAndPrioritizeUrls_sorted_stable
    (urls : List Str) (baseUrl : Str) (maxUrls : Nat)
    (bp : UrlParts) (out : List Str)
    (hb : parseUrl baseUrl = some bp)
    (hout : filterAndPrioritizeUrls urls baseUrl maxUrls = some out) :
    List.Pairwise priLe out ∧
    ∀ k : Int, (prioritizeUrls (urls.filter (urlAccept bp))).filter
        (fun u => decide (priorityOf u = k)) =
      (urls.filter (urlAccept bp)).filter
        (fun u => decide (priorityOf u = k)) := by
  unfold filterAndPrioritizeUrls at hout
  rw [hb] at hout
  have hout' : (prioritizeUrls (urls.filter (urlAccept bp))).take maxUrls
      = out := Option.some.inj hout
  constructor
  · have hs : List.Sorted priLe
        (List.insertionSort priLe (urls.filter (urlAccept bp))) :=
      List.sorted_insertionSort priLe _
    rw [← hout']
    exact List.Pairwise.sublist (List.take_sublist _ _) hs
  · intro k
    unfold prioritizeUrls
    exact insertionSort_stable_filter k _

/-- Witness for the amended C9 at a concrete input. -/
theorem filterAndPrioritizeUrls_sorted_stable_witness :
    List.Pairwise priLe
      [("https://a.com/docs/a").data, ("https://a.com/x").data] ∧
    ∀ k : Int, (prioritizeUrls
        ([("https://a.com/docs/a").data, ("https://a.com/x").data].filter
          (urlAccept ⟨("a.com").data, ("/").data⟩))).filter
        (fun u => decide (priorityOf u = k)) =
      ([("https://a.com/docs/a").data, ("https://a.com/x").data].filter
        (urlAccept ⟨("a.com").data, ("/").data⟩)).filter
        (fun u => decide (priorityOf u = k)) :=
  filterAndPrioritizeUrls_sorted_stable
    [("https://a.com/docs/a").data, ("https://a.com/x").data]
    (("https://a.com/").data) 10 ⟨("a.com").data, ("/").data⟩
    [("https://a.com/docs/a").data, ("https://a.com/x").data]
    (by decide) (by decide)

/-- C3 (code evaluation at the failing input): the `throw` for a
terminal-failed poll response sits inside the try block, so its own
catch swallows it.  With every response `failed`, the poller keeps
polling and after all 15 attempts raises the polling-exhausted error —
the task-failed cause never surfaces (the outcome type has no
task-failed constructor because no such error can escape the method).
With a `failed` response on attempt 1 followed by `pending` responses,
polling continues to the very end and times out instead of stopping
immediately. -/
theorem pollForResults_failed_swallowed :
    pollForResults (fun _ => PollResp.failed (("boom").data)) 15 =
      PollOutcome.exhausted 15 ∧
    pollForResults
      (fun n => if n = 1 then PollResp.failed (("boom").data)
       else PollResp.pending) 15 = PollOutcome.timedOut := by
  exact ⟨by decide, by decide⟩

/-- C4 (counterexample): after a batch exhausts its retries, nothing is
recorded for it — its URLs are absent from the aggregated results
rather than recorded as failed.  Batch 0 (URL `a`) fails both attempts,
batch 1 (URL `b`) succeeds; the result list contains only the record
for `b` and no record at all for `a`. -/
theorem intelligentBatchCrawl_no_failed_records :
    intelligentBatchCrawl
      (fun b _ => if b = [("a").data] then .error ()
       else .ok [⟨("b").data, true⟩])
      [("a").data, ("b").data] 1 7 2 =
      ([.attempt 0 1, .retryDelay 7, .attempt 0 2, .coolOff 7,
        .attempt 1 1],
       [⟨("b").data, true⟩]) ∧
    ∀ r ∈ (intelligentBatchCrawl
      (fun b _ => if b = [("a").data] then .error ()
       else .ok [⟨("b").data, true⟩])
      [("a").data, ("b").data] 1 7 2).2, r.url ≠ ("a").data := by
  exact ⟨by decide, by decide⟩

/-- C4 (amended): a batch whose crawl call fails on every attempt is
attempted exactly `maxRetries` times, with the linear back-off delay
`coolOffDelay * attemptNumber` between consecutive attempts, and
contributes no results (its URLs are dropped, not recorded as failed);
and the scheduler's aggregated results are the concatenation of every
batch's own results, so one batch failing never suppresses the results
of the other batches or aborts the run. -/
theorem batch_retry_bound_and_isolation
    (crawlB : List Str → Nat → Except Unit (List PageRec))
    (batch : List Str) (bIdx coolOff R : Nat)
    (hfail : ∀ a, crawlB batch a = .error ()) :
    runBatch crawlB batch bIdx coolOff R =
      (((List.range' 1 R).map
        (fun a => BatchEvent.attempt bIdx a ::
          (if a < R then [BatchEvent.retryDelay (coolOff * a)]
           else []))).flatten, []) ∧
    ∀ (bs : List (List Str)) (i : Nat),
      (schedGo crawlB coolOff R i bs).2 =
        ((List.enumFrom i bs).map
          (fun p => (runBatch crawlB p.2 p.1 coolOff R).2)).flatten := by
  constructor
  · exact retryGo_allFail crawlB batch bIdx coolOff R hfail R 0 (by omega)
  · intro bs i
    exact schedGo_results crawlB coolOff R bs i

/-- Witness for the amended C4 at a concrete input: an always-failing
batch with `maxRetries = 3` and `coolOffDelay = 5` is attempted exactly
three times with delays 5 and 10 in between, and yields no records. -/
theorem batch_retry_bound_and_isolation_witness :
    runBatch (fun _ _ => Except.error ()) [("u").data] 0 5 3 =
      ([.attempt 0 1, .retryDelay 5, .attempt 0 2, .retryDelay 10,
        .attempt 0 3], []) := by
  have h := (batch_retry_bound_and_isolation
    (fun _ _ => Except.error ()) [("u").data] 0 5 3 (fun _ => rfl)).1
  rw [h]
  decide

/-- C5 (counterexample): when the native strategy throws `native boom`
and the manual strategy's body throws `manual boom`, the run returns a
failed result whose error is `Smart crawl failed: manual boom` — it
does not mention the native cause at all, so the terminal error does
not describe both underlying failures. -/
theorem smartSiteCrawl_not_combined :
    smartSiteCrawl (("https://a.com").data)
      (.error (("native boom").data)) (.error (("manual boom").data)) =
      failedResult (("https://a.com").data)
        (("Smart crawl failed: manual boom").data) ∧
    containsSub (("native boom").data)
      (smartCrawlFailedMsg (("manual boom").data)) = false := by
  exact ⟨by decide, by decide⟩

/-- C5 (amended): when both the native and the manual smart-site
strategies fail, the crawl returns a terminal failed result whose error
message describes only the manual failure
(`Smart crawl failed: <manual cause>`); the combined both-causes
message of the outer catch is unreachable, because
`smartSiteCrawlManual` catches its own errors and returns a failed
result instead of throwing. -/
theorem smartSiteCrawl_manual_error_only (url ne me : Str) :
    smartSiteCrawl url (.error ne) (.error me) =
      failedResult url (smartCrawlFailedMsg me) ∧
    smartSiteCrawlManual url (.error me) =
      .ok (failedResult url (smartCrawlFailedMsg me)) :=
  ⟨rfl, rfl⟩

/-- C6: whenever chunking yields more than one chunk, the embedding the
adapter returns has the shared dimension `D` of the per-chunk vectors,
and its `i`-th component is the arithmetic mean of the `i`-th
components of the vectors the remote call returned for the (possibly
truncated) chunks. -/
theorem generateEmbedding_chunk_mean (M : Nat) (embed : Str → List ℚ)
    (text : Str) (D : Nat)
    (hk : 1 < (chunkText text M).length)
    (hD : ∀ s, (embed s).length = D) :
    (generateEmbeddingWith M embed text).length = D ∧
    ∀ i, i < D →
      (generateEmbeddingWith M embed text).getD i 0 =
        ((chunkText text M).map
          (fun c => (embed (truncateChunk c)).getD i 0)).sum /
          ((chunkText text M).length : ℚ) := by
  have hmain : generateEmbeddingWith M embed text =
      avgVectors ((chunkText text M).map
        (fun c => embed (truncateChunk c))) := by
    unfold generateEmbeddingWith
    rw [if_pos hk]
  cases hm : (chunkText text M).map (fun c => embed (truncateChunk c)) with
  | nil =>
    exfalso
    have : (chunkText text M).length = 0 := by
      have := congrArg List.length hm
      rwa [List.length_map] at this
    omega
  | cons v vs' =>
    have hvD : ∀ e ∈ v :: vs', e.length = D := by
      intro e he
      rw [← hm] at he
      obtain ⟨c, _, hc⟩ := List.mem_map.mp he
      rw [← hc]
      exact hD _
    have hvlen : v.length = D := hvD v (List.mem_cons_self v vs')
    have hrep : (List.replicate v.length (0 : ℚ)).length = D := by
      rw [List.length_replicate, hvlen]
    have hallrep : ∀ e ∈ v :: vs',
        e.length = (List.replicate v.length (0 : ℚ)).length := by
      intro e he
      rw [hrep]
      exact hvD e he
    have hsumlen : ((v :: vs').foldl (fun a e => a.zipWith (· + ·) e)
        (List.replicate v.length (0 : ℚ))).length = D := by
      rw [foldl_zipAdd_length _ _ hallrep, hrep]
    have havg : avgVectors ((chunkText text M).map
        (fun c => embed (truncateChunk c))) =
        ((v :: vs').foldl (fun a e => a.zipWith (· + ·) e)
          (List.replicate v.length (0 : ℚ))).map
          (fun x => x / (((v :: vs').length : ℚ))) := by
      rw [hm]
      rfl
    constructor
    · rw [hmain, havg, List.length_map, hsumlen]
    · intro i hi
      rw [hmain, havg,
        getD_map_of_lt _ _ i (by rw [hsumlen]; exact hi),
        foldl_zipAdd_getD _ _ i (by rw [hrep]; exact hi) hallrep,
        getD_replicate_zero, zero_add]
      have hmaps : (v :: vs').map (fun e => e.getD i 0) =
          (chunkText text M).map
            (fun c => (embed (truncateChunk c)).getD i 0) := by
        rw [← hm, List.map_map]
        rfl
      have hlens : ((v :: vs').length : ℚ) =
          ((chunkText text M).length : ℚ) := by
        have := congrArg List.length hm
        rw [List.length_map] at this
        rw [← this]
      rw [hmaps, hlens]

/-- Witness for C6 at a concrete input: `aa! bb` chunks into two pieces
at bound 1, and with a constant two-dimensional embedding oracle the
returned mean vector has dimension 2. -/
theorem generateEmbedding_chunk_mean_witness :
    1 < (chunkText (("aa! bb").data) 1).length ∧
    (generateEmbeddingWith 1 (fun _ => [(1 : ℚ), 3])
      (("aa! bb").data)).length = 2 :=
  ⟨by decide, (generateEmbedding_chunk_mean 1 (fun _ => [(1 : ℚ), 3])
    (("aa! bb").data) 2 (by decide) (fun _ => rfl)).1⟩

/-- C8: when the embeddings call throws, `saveCrawlResultAsDocument`
still sends exactly one document to the store — with no embedding field
set — and returns it; the page record is persisted rather than lost. -/
theorem saveCrawlResult_embedding_failure_persists (cr : CrawlInfo)
    (e : Str)
    (hcontent : (trimChars (markdownContent cr)).isEmpty = false) :
    ∃ d, saveCrawlResultAsDocument true (.error e) true cr =
        (.ok d, [d]) ∧ d.embedding = none := by
  have htxt : (trimChars (textForEmbedding cr)).isEmpty = false :=
    textForEmbedding_trim_ne cr hcontent
  refine ⟨⟨cr.url, cr.pageIndex.getD 1, markdownContent cr, none⟩, ?_, rfl⟩
  unfold saveCrawlResultAsDocument
  rw [htxt]
  rfl

/-- Witness for C8 at a concrete input. -/
theorem saveCrawlResult_embedding_failure_persists_witness :
    ∃ d, saveCrawlResultAsDocument true (.error (("down").data)) true
        ⟨("https://a.com/p").data, ("hello").data, [], [], [],
          none, none⟩ =
      (.ok d, [d]) ∧ d.embedding = none :=
  saveCrawlResult_embedding_failure_persists
    ⟨("https://a.com/p").data, ("hello").data, [], [], [], none, none⟩
    (("down").data) (by decide)

/-- C10: for every crawl result whose best-available content is empty
or whitespace-only, `saveIndividualPage` issues no upsert and raises no
error — the store is left untouched for that page. -/
theorem saveIndividualPage_empty_content_no_upsert (saveFails : Bool)
    (r : RawPage)
    (h : (trimChars (bestContentOf r)).isEmpty = true) :
    saveIndividualPage saveFails r = ([], false) := by
  unfold saveIndividualPage
  cases hs : r.success <;> simp [hs, h]

/-- Witness for C10 at a concrete input: a successful result whose only
content field is whitespace triggers no upsert. -/
theorem saveIndividualPage_empty_content_no_upsert_witness :
    (trimChars (bestContentOf
      ⟨true, ("https://a.com/p").data, [], [], [],
        ("  ").data, [], []⟩)).isEmpty = true ∧
    saveIndividualPage false
      ⟨true, ("https://a.com/p").data, [], [], [],
        ("  ").data, [], []⟩ = ([], false) :=
  ⟨by decide, saveIndividualPage_empty_content_no_upsert false
    ⟨true, ("https://a.com/p").data, [], [], [],
      ("  ").data, [], []⟩ (by decide)⟩

/-- Witness for the amended C5 at concrete causes. -/
theorem smartSiteCrawl_manual_error_only_witness :
    smartSiteCrawl (("https://b.com").data)
      (.error (("n-cause").data)) (.error (("m-cause").data)) =
      failedResult (("https://b.com").data)
        (smartCrawlFailedMsg (("m-cause").data)) ∧
    smartSiteCrawlManual (("https://b.com").data)
      (.error (("m-cause").data)) =
      .ok (failedResult (("https://b.com").data)
        (smartCrawlFailedMsg (("m-cause").data))) :=
  smartSiteCrawl_manual_error_only (("https://b.com").data)
    (("n-cause").data) (("m-cause").data)
